import Mathlib

set_option maxRecDepth 8000

/-! Verification of the local content formatter of a product-details viewer.

The formatter (`format_content_locally` in the source) parses semi-structured
catalog text into key/value blocks, or into a bullet list when no
colon-terminated key is present, and highlights a fixed list of keywords.
Strings are modelled as lists of characters; the regular-expression scans of
the source are modelled by explicit left-to-right scanners (fuel-indexed so
that every definition is structurally recursive and executable). -/

/-- ASCII model of the regex word class: letters, digits and underscore
(stated on code points so that linear arithmetic applies). -/
def isWordChar (c : Char) : Bool :=
  (65 ≤ c.toNat && c.toNat ≤ 90) || (97 ≤ c.toNat && c.toNat ≤ 122) ||
  (48 ≤ c.toNat && c.toNat ≤ 57) || c.toNat == 95

/-- Whitespace characters: the regex space class and the str.strip set
(ASCII part). -/
def isSpaceChar (c : Char) : Bool :=
  c = ' ' || c = '\t' || c = '\n' || c = '\r' || c = '\x0B' || c = '\x0C'

/-- Characters that may appear in the body of a candidate key: the regex
class of word, space and digit characters. -/
def isKeyChar (c : Char) : Bool := isWordChar c || isSpaceChar c

/-- One attempt of the key regex (a word character, then word/space/digit
characters, then a literal colon) at the start of the string.  On success it
returns the matched key and the remaining input.  The starred class is
greedy, and since a colon is not in the class, backtracking can never
succeed at a shorter run, so the maximal run must be followed by a colon. -/
def tryKey : List Char → Option (List Char × List Char)
  | [] => none
  | c :: cs =>
    if isWordChar c then
      match cs.dropWhile isKeyChar with
      | ':' :: rest => some (c :: (cs.takeWhile isKeyChar ++ [':']), rest)
      | _ => none
    else none

/-- Left-to-right non-overlapping scan collecting every match of the key
regex, as re.findall does: on a match the scan resumes after the match,
otherwise it advances one character. -/
def findKeysF : Nat → List Char → List (List Char)
  | 0, _ => []
  | _ + 1, [] => []
  | fuel + 1, c :: cs =>
    match tryKey (c :: cs) with
    | some (m, rest) => m :: findKeysF fuel rest
    | none => findKeysF fuel cs

/-- All candidate keys of the text, in discovery order. -/
def findKeys (s : List Char) : List (List Char) := findKeysF s.length s

/-- Splitting scan of re.split with a capturing group whose pattern is the
alternation of the key literals: the result interleaves the text segments
with the matched separators, `[segment0, key1, segment1, key2, segment2, …]`.
At every position the first alternative (in list order) that is a literal
prefix of the remaining input matches. -/
def splitCapF (ks : List (List Char)) : Nat → List Char → List (List Char)
  | 0, s => [s]
  | _ + 1, [] => [[]]
  | fuel + 1, c :: cs =>
    match ks.find? (fun k => k.isPrefixOf (c :: cs)) with
    | some k => [] :: k :: splitCapF ks fuel ((c :: cs).drop k.length)
    | none =>
      match splitCapF ks fuel cs with
      | [] => [[c]]
      | seg :: rest => (c :: seg) :: rest

/-- Interleaved split of the text around all occurrences of the keys. -/
def splitCap (ks : List (List Char)) (s : List Char) : List (List Char) :=
  splitCapF ks s.length s

/-- Python str.strip: remove leading and trailing whitespace. -/
def pyStrip (s : List Char) : List Char :=
  ((s.dropWhile isSpaceChar).reverse.dropWhile isSpaceChar).reverse

/-- Wordness of the first character; the empty string counts as non-word
(the regex boundary treats the edge of the string as a non-word side). -/
def headIsWord : List Char → Bool
  | [] => false
  | c :: _ => isWordChar c

/-- Wordness of the last character, edge counting as non-word. -/
def lastIsWord (l : List Char) : Bool := headIsWord l.reverse

/-- Case-insensitive equality of two character lists (ASCII lowering),
including a length check. -/
def lowerEq (a b : List Char) : Bool := a.map Char.toLower == b.map Char.toLower

/-- Match condition of the keyword regex (word boundary, then the keyword
case-insensitively, then a word boundary) at the start of `s`, where `prevW`
is the wordness of the input character just before this position. -/
def condKw (kw : List Char) (prevW : Bool) (s : List Char) : Bool :=
  lowerEq (s.take kw.length) kw &&
  (prevW != headIsWord s) &&
  (lastIsWord (s.take kw.length) != headIsWord (s.drop kw.length))

/-- Opening markup inserted around a highlighted keyword occurrence. -/
def spanOpen : List Char := "<span style=\"color:red; font-weight:bold;\">".toList

/-- Closing markup inserted around a highlighted keyword occurrence. -/
def spanClose : List Char := "</span>".toList

/-- Left-to-right scan of re.sub for one keyword: each match is replaced by
the markup-wrapped matched text (group 1, so the original casing is kept)
and the scan resumes after the match in the input; otherwise the character
is copied and the scan advances.  `prevW` tracks the wordness of the
previous input character for the boundary test. -/
def subKwF (kw : List Char) : Nat → Bool → List Char → List Char
  | 0, _, s => s
  | _ + 1, _, [] => []
  | fuel + 1, prevW, c :: cs =>
    if condKw kw prevW (c :: cs) then
      spanOpen ++ (c :: cs).take kw.length ++ spanClose ++
        subKwF kw fuel (lastIsWord ((c :: cs).take kw.length)) ((c :: cs).drop kw.length)
    else
      c :: subKwF kw fuel (isWordChar c) cs

/-- re.sub of one keyword over a whole string, starting at a string edge. -/
def subKwB (kw : List Char) (prevW : Bool) (s : List Char) : List Char :=
  subKwF kw s.length prevW s

/-- Substitute one keyword everywhere in `s`. -/
def subKw (kw s : List Char) : List Char := subKwB kw false s

/-- The fixed keyword list of the source, in its order. -/
def keywords_to_highlight : List (List Char) :=
  ["Unit".toList, "Value".toList, "Bullet Point".toList,
   "Bullet Poin".toList, "Item Name".toList]

/-- Sequential keyword emphasis: one re.sub pass per keyword, in list order,
each pass running over the output of the previous pass. -/
def highlightKeywords (s : List Char) : List Char :=
  keywords_to_highlight.foldl (fun acc kw => subKw kw acc) s

/-- Punctuation test of the sentence-split lookbehind. -/
def isPunctOpt : Option Char → Bool
  | some c => c = '.' || c = '!' || c = '?'
  | none => false

/-- Scan of re.split on "whitespace preceded by sentence punctuation":
`inSep` says that the scan is inside a separator run of whitespace, and
`prev` is the previous character (for the lookbehind).  Separators are
dropped; the head of the result is the segment currently being built. -/
def splitSentGo (inSep : Bool) (prev : Option Char) : List Char → List (List Char)
  | [] => [[]]
  | c :: cs =>
    if inSep && isSpaceChar c then splitSentGo true (some c) cs
    else if isPunctOpt prev && isSpaceChar c then [] :: splitSentGo true (some c) cs
    else
      match splitSentGo false (some c) cs with
      | [] => [[c]]
      | seg :: rest => (c :: seg) :: rest

/-- Sentence split of the no-keys branch. -/
def splitSentences (s : List Char) : List (List Char) := splitSentGo false none s

/-- Total pairing of a list into consecutive pairs, dropping a trailing
unmatched element. -/
def pairUp {α : Type} : List α → List (α × α)
  | a :: b :: rest => (a, b) :: pairUp rest
  | _ => []

/-- The index loop `for i in range(1, len(values), 2)` reading `values[i]`
and `values[i+1]`, applied to `values` with its first element removed:
`none` models the IndexError that would be raised if a key element at the
last index had no following value element. -/
def pairsIdx {α : Type} : List α → Option (List (α × α))
  | [] => some []
  | [_] => none
  | a :: b :: rest => (pairsIdx rest).map (fun l => (a, b) :: l)

/-- The local formatter of the source: discover candidate keys; if none are
found, split into sentences, keep the non-blank ones as bullet lines joined
by single newlines and highlight the joined block; otherwise split the text
around the key occurrences, discard the text before the first key, and emit
one "**key** value" line per (key, value) pair with the keyword emphasis
applied to the stripped value only, joined by blank lines.  The result is
`none` exactly when the pairing loop would raise an IndexError. -/
def format_content_locally (text : List Char) : Option (List Char) :=
  if findKeys text = [] then
    some (highlightKeywords (List.intercalate ['\n']
      (((splitSentences text).filter (fun s => !(pyStrip s).isEmpty)).map
        (fun s => "&bull; ".toList ++ pyStrip s))))
  else
    match pairsIdx ((splitCap (findKeys text) text).drop 1) with
    | none => none
    | some pairs =>
      some (List.intercalate ['\n', '\n'] (pairs.map (fun kv =>
        "**".toList ++ pyStrip kv.1 ++ "**".toList ++ [' '] ++
          highlightKeywords (pyStrip kv.2))))

/-- A cell of the record table as seen by the caller of the formatter:
either a string value or the pandas null (NaN), whose str coercion is the
literal text "nan". -/
inductive CellVal : Type
  | strV (s : List Char) : CellVal
  | nanV : CellVal

/-- Python str coercion of a cell value. -/
def cellToText : CellVal → List Char
  | .strV s => s
  | .nanV => "nan".toList

/-- The fixed fallback text used when the content field is absent. -/
def fallbackText : List Char := "No description available.".toList

/-- The raw description of the selected record: the content field when the
field is present (coerced to text), and the fallback text when the field is
absent, as in `str(product_details.get('catalog_content', …))`. -/
def raw_description (field : Option CellVal) : List Char :=
  match field with
  | none => fallbackText
  | some v => cellToText v

/-! Basic facts about the key pattern. -/

/-- Shape of every string the key regex can match: a word character, then
word/space/digit characters, then a final colon. -/
def validKey (k : List Char) : Prop :=
  ∃ c r, k = c :: (r ++ [':']) ∧ isWordChar c = true ∧ ∀ d ∈ r, isKeyChar d = true

lemma word_not_space {c : Char} (h : isWordChar c = true) : isSpaceChar c = false := by
  by_contra hs
  have hs' : isSpaceChar c = true := by
    cases hsp : isSpaceChar c
    · exact absurd hsp hs
    · rfl
  simp only [isSpaceChar, Bool.or_eq_true, decide_eq_true_eq] at hs'
  rcases hs' with ((((h1 | h1) | h1) | h1) | h1) | h1 <;> subst h1 <;> exact absurd h (by decide)

lemma keyChar_colon : isKeyChar ':' = false := by decide

lemma takeWhile_all_head {p : Char → Bool} {r : List Char} {x : Char} {t : List Char}
    (hr : ∀ d ∈ r, p d = true) (hx : p x = false) :
    (r ++ x :: t).takeWhile p = r := by
  induction r with
  | nil => simp [List.takeWhile_cons, hx]
  | cons a r ih =>
    have ha : p a = true := hr a (by simp)
    rw [List.cons_append, List.takeWhile_cons, ha,
      ih (fun d hd => hr d (by simp [hd]))]
    simp

lemma dropWhile_all_head {p : Char → Bool} {r : List Char} {x : Char} {t : List Char}
    (hr : ∀ d ∈ r, p d = true) (hx : p x = false) :
    (r ++ x :: t).dropWhile p = x :: t := by
  induction r with
  | nil => simp [List.dropWhile_cons, hx]
  | cons a r ih =>
    have ha : p a = true := hr a (by simp)
    rw [List.cons_append, List.dropWhile_cons, ha]
    exact ih (fun d hd => hr d (by simp [hd]))

lemma tryKey_some {s m rest : List Char} (h : tryKey s = some (m, rest)) :
    validKey m ∧ s = m ++ rest := by
  cases s with
  | nil => simp [tryKey] at h
  | cons c cs =>
    simp only [tryKey] at h
    split at h
    case isTrue hc =>
      split at h
      case h_1 rest' hd =>
        simp only [Option.some.injEq, Prod.mk.injEq] at h
        obtain ⟨h1, h2⟩ := h
        subst h1; subst h2
        constructor
        · exact ⟨c, cs.takeWhile isKeyChar, rfl, hc,
            fun d hd' => List.mem_takeWhile_imp hd'⟩
        · have hsplit : List.takeWhile isKeyChar cs ++ List.dropWhile isKeyChar cs = cs :=
            List.takeWhile_append_dropWhile isKeyChar cs
          have hcs : cs = List.takeWhile isKeyChar cs ++ (':' :: rest') := by
            conv_rhs => rw [← hd]
            exact hsplit.symm
          conv_lhs => rw [hcs]
          simp
      case h_2 => simp at h
    case isFalse => simp at h

lemma tryKey_valid_append {k : List Char} (hk : validKey k) (t : List Char) :
    tryKey (k ++ t) = some (k, t) := by
  rcases hk with ⟨c, r, rfl, hc, hr⟩
  have hshape : (c :: (r ++ [':'])) ++ t = c :: (r ++ ':' :: t) := by simp
  rw [hshape]
  simp only [tryKey, hc, if_true]
  rw [dropWhile_all_head hr keyChar_colon, takeWhile_all_head hr keyChar_colon]
  split
  · rename_i rest heq
    cases heq
    rfl
  · rename_i hne
    exact absurd rfl (hne t)

lemma validKey_unique {k₁ k₂ t₁ t₂ : List Char} (h1 : validKey k₁) (h2 : validKey k₂)
    (he : k₁ ++ t₁ = k₂ ++ t₂) : k₁ = k₂ := by
  have e1 := tryKey_valid_append h1 t₁
  have e2 := tryKey_valid_append h2 t₂
  rw [he, e2] at e1
  exact (Prod.mk.injEq _ _ _ _ ▸ (Option.some.injEq _ _ ▸ e1)).1.symm

lemma isPrefixOf_ex : ∀ (k s : List Char), k.isPrefixOf s = true ↔ ∃ t, s = k ++ t := by
  intro k
  induction k with
  | nil => intro s; simp [List.isPrefixOf]
  | cons a as ih =>
    intro s
    cases s with
    | nil => simp [List.isPrefixOf]
    | cons b bs =>
      simp only [List.isPrefixOf, Bool.and_eq_true, beq_iff_eq, ih bs, List.cons_append,
        List.cons.injEq]
      constructor
      · rintro ⟨rfl, t, rfl⟩; exact ⟨t, rfl, rfl⟩
      · rintro ⟨t, rfl, rfl⟩; exact ⟨rfl, t, rfl⟩

lemma findKeysF_valid : ∀ (fuel : Nat) (s : List Char), ∀ k ∈ findKeysF fuel s, validKey k
  | 0, _ => by simp [findKeysF]
  | _ + 1, [] => by simp [findKeysF]
  | fuel + 1, c :: cs => by
    intro k hk
    rcases htry : tryKey (c :: cs) with _ | ⟨m, rest⟩
    · rw [findKeysF, htry] at hk
      exact findKeysF_valid fuel cs k hk
    · rw [findKeysF, htry] at hk
      rcases List.mem_cons.1 hk with rfl | hk'
      · exact (tryKey_some htry).1
      · exact findKeysF_valid fuel rest k hk'

lemma findKeys_valid (s : List Char) : ∀ k ∈ findKeys s, validKey k :=
  findKeysF_valid s.length s

/-! Structure of the interleaved split. -/

/-- The separators (elements at the odd positions) of an interleaved split. -/
def sepsOf : List (List Char) → List (List Char)
  | _ :: k :: r => k :: sepsOf r
  | _ => []

lemma sepsOf_cons_cons (x k : List Char) (r : List (List Char)) :
    sepsOf (x :: k :: r) = k :: sepsOf r := rfl

lemma splitCapF_length_odd (ks : List (List Char)) :
    ∀ (fuel : Nat) (s : List Char), (splitCapF ks fuel s).length % 2 = 1
  | 0, s => by simp [splitCapF]
  | _ + 1, [] => by simp [splitCapF]
  | fuel + 1, c :: cs => by
    rcases hf : ks.find? (fun k => k.isPrefixOf (c :: cs)) with _ | k
    · have ih := splitCapF_length_odd ks fuel cs
      rcases hrec : splitCapF ks fuel cs with _ | ⟨seg, rest⟩
      · rw [hrec] at ih; simp at ih
      · rw [hrec] at ih
        simp only [splitCapF, hf, hrec]
        simpa using ih
    · have ih := splitCapF_length_odd ks fuel ((c :: cs).drop k.length)
      simp only [splitCapF, hf, List.length_cons]
      omega

lemma splitCapF_ne_nil (ks : List (List Char)) (fuel : Nat) (s : List Char) :
    splitCapF ks fuel s ≠ [] := by
  intro h
  have := splitCapF_length_odd ks fuel s
  rw [h] at this
  simp at this

lemma seps_lockstep (ks : List (List Char)) (hval : ∀ k ∈ ks, validKey k) :
    ∀ (fuel : Nat) (s : List Char), (∀ k ∈ findKeysF fuel s, k ∈ ks) →
      sepsOf (splitCapF ks fuel s) = findKeysF fuel s
  | 0, s, _ => by simp [splitCapF, findKeysF, sepsOf]
  | _ + 1, [], _ => by simp [splitCapF, findKeysF, sepsOf]
  | fuel + 1, c :: cs, hsub => by
    rcases htry : tryKey (c :: cs) with _ | ⟨m, rest⟩
    · have hfind : ks.find? (fun k => k.isPrefixOf (c :: cs)) = none := by
        rw [List.find?_eq_none]
        intro k hkks hkp
        rcases (isPrefixOf_ex k (c :: cs)).1 (by simpa using hkp) with ⟨t, ht⟩
        have hv := tryKey_valid_append (hval k hkks) t
        rw [← ht, htry] at hv
        exact Option.noConfusion hv
      have hrecsub : ∀ k ∈ findKeysF fuel cs, k ∈ ks := by
        intro k hk
        apply hsub
        simp only [findKeysF, htry]
        exact hk
      have ih := seps_lockstep ks hval fuel cs hrecsub
      rcases hrec : splitCapF ks fuel cs with _ | ⟨seg, rest2⟩
      · exact absurd hrec (splitCapF_ne_nil ks fuel cs)
      · simp only [splitCapF, hfind, hrec]
        simp only [findKeysF, htry]
        rw [hrec] at ih
        rw [← ih]
        cases rest2 <;> rfl
    · obtain ⟨hmval, hmeq⟩ := tryKey_some htry
      have hmem : m ∈ ks := by
        apply hsub
        simp only [findKeysF, htry]
        exact List.mem_cons_self _ _
      have hpm : m.isPrefixOf (c :: cs) = true := (isPrefixOf_ex m (c :: cs)).2 ⟨rest, hmeq⟩
      rcases hfind : ks.find? (fun k => k.isPrefixOf (c :: cs)) with _ | k₀
      · rw [List.find?_eq_none] at hfind
        exact absurd hpm (by simpa using hfind m hmem)
      · have hk₀p : k₀.isPrefixOf (c :: cs) = true := by simpa using List.find?_some hfind
        have hk₀ks : k₀ ∈ ks := List.mem_of_find?_eq_some hfind
        rcases (isPrefixOf_ex k₀ (c :: cs)).1 hk₀p with ⟨t₀, ht₀⟩
        have hkeq : k₀ = m :=
          validKey_unique (hval k₀ hk₀ks) hmval (ht₀.symm.trans hmeq)
        subst hkeq
        have hdrop : (c :: cs).drop k₀.length = rest := by
          rw [hmeq]
          exact List.drop_left k₀ rest
        simp only [splitCapF, hfind, hdrop]
        simp only [findKeysF, htry]
        rw [sepsOf_cons_cons]
        congr 1
        apply seps_lockstep ks hval fuel rest
        intro k hk
        apply hsub
        simp only [findKeysF, htry]
        exact List.mem_cons_of_mem _ hk

lemma seps_splitCap_findKeys (t : List Char) :
    sepsOf (splitCap (findKeys t) t) = findKeys t :=
  seps_lockstep (findKeys t) (findKeys_valid t) t.length t (fun _ hk => hk)

/-! The pairing loop. -/

lemma pairsIdx_even {α : Type} : ∀ (l : List α), l.length % 2 = 0 →
    pairsIdx l = some (pairUp l)
  | [], _ => rfl
  | [_], h => by simp at h
  | _ :: _ :: r, h => by
    have hr : r.length % 2 = 0 := by
      simp only [List.length_cons] at h
      omega
    simp [pairsIdx, pairUp, pairsIdx_even r hr]

lemma map_fst_pairUp_drop : ∀ (l : List (List Char)), l.length % 2 = 1 →
    (pairUp (l.drop 1)).map Prod.fst = sepsOf l
  | [], h => by simp at h
  | [_], _ => by simp [pairUp, sepsOf]
  | x :: k :: r, h => by
    have hr : r.length % 2 = 1 := by
      simp only [List.length_cons] at h
      omega
    rcases r with _ | ⟨v, r'⟩
    · simp at hr
    · have ih := map_fst_pairUp_drop (v :: r') hr
      simp only [List.drop_succ_cons, List.drop_zero] at ih ⊢
      simp only [pairUp, List.map_cons, sepsOf_cons_cons]
      rw [List.cons.injEq]
      exact ⟨rfl, ih⟩

lemma zipWith_fst_snd {α β γ : Type} (f : α → β → γ) :
    ∀ (l : List (α × β)),
      List.zipWith f (l.map Prod.fst) (l.map Prod.snd) = l.map (fun p => f p.1 p.2)
  | [] => rfl
  | p :: r => by simp [zipWith_fst_snd f r]

/-- Branch A of the formatter, in closed form: when keys are found, the
output is exactly the joined list of "**key** value" lines over the
consecutive (key, value) pairs of the interleaved split with its first
segment removed. -/
lemma branchA_eq (t : List Char) (h : findKeys t ≠ []) :
    format_content_locally t = some (List.intercalate ['\n', '\n']
      ((pairUp ((splitCap (findKeys t) t).drop 1)).map (fun kv =>
        "**".toList ++ pyStrip kv.1 ++ "**".toList ++ [' '] ++
          highlightKeywords (pyStrip kv.2)))) := by
  have hodd : (splitCap (findKeys t) t).length % 2 = 1 :=
    splitCapF_length_odd (findKeys t) t.length t
  have heven : ((splitCap (findKeys t) t).drop 1).length % 2 = 0 := by
    rw [List.length_drop]
    omega
  unfold format_content_locally
  rw [if_neg h, pairsIdx_even _ heven]

lemma pyStrip_validKey {k : List Char} (hk : validKey k) : pyStrip k = k := by
  rcases hk with ⟨c, r, rfl, hc, hr⟩
  unfold pyStrip
  have h1 : isSpaceChar c = false := word_not_space hc
  have hdw : (c :: (r ++ [':'])).dropWhile isSpaceChar = c :: (r ++ [':']) := by
    rw [List.dropWhile_cons, h1]
    simp
  rw [hdw]
  have hrev : (c :: (r ++ [':'])).reverse = ':' :: (c :: r).reverse := by
    simp
  rw [hrev]
  have hcolon : isSpaceChar ':' = false := by decide
  rw [List.dropWhile_cons, hcolon]
  simp

/-- C1: for every input in which candidate keys are found, the formatter
emits exactly the (key, value) pairs at positions (1,2), (3,4), … of the
interleaved split sequence, each as the whitespace-trimmed key in bold
followed by the trimmed value with keyword emphasis applied to the value
only, joined by double newlines, with the text before the first key
(segment 0) absent from the output. -/
theorem formatter_keys_branch_exact (t : List Char) (h : findKeys t ≠ []) :
    format_content_locally t = some (List.intercalate ['\n', '\n']
      ((pairUp ((splitCap (findKeys t) t).drop 1)).map (fun kv =>
        "**".toList ++ pyStrip kv.1 ++ "**".toList ++ [' '] ++
          highlightKeywords (pyStrip kv.2)))) := branchA_eq t h

theorem formatter_keys_branch_exact_instance :
    findKeys "A: 1 B: 2".toList ≠ [] ∧
    format_content_locally "A: 1 B: 2".toList = some (List.intercalate ['\n', '\n']
      ((pairUp ((splitCap (findKeys "A: 1 B: 2".toList) "A: 1 B: 2".toList).drop 1)).map
        (fun kv => "**".toList ++ pyStrip kv.1 ++ "**".toList ++ [' '] ++
          highlightKeywords (pyStrip kv.2)))) :=
  ⟨by decide, formatter_keys_branch_exact "A: 1 B: 2".toList (by decide)⟩

/-- C3: on the keys-found branch the interleaved split sequence always has
odd length, so the pairing loop (modelled by `pairsIdx`, which returns
`none` exactly on the out-of-range access Python would raise on) never
accesses an index past the end: every key element at an odd index is
followed by a value element, and the loop returns all consecutive pairs. -/
theorem pairing_loop_safe (t : List Char) (h : findKeys t ≠ []) :
    (splitCap (findKeys t) t).length % 2 = 1 ∧
    pairsIdx ((splitCap (findKeys t) t).drop 1) =
      some (pairUp ((splitCap (findKeys t) t).drop 1)) := by
  have hodd : (splitCap (findKeys t) t).length % 2 = 1 :=
    splitCapF_length_odd (findKeys t) t.length t
  refine ⟨hodd, pairsIdx_even _ ?_⟩
  rw [List.length_drop]
  omega

theorem pairing_loop_safe_instance :
    (splitCap (findKeys "Color: red".toList) "Color: red".toList).length % 2 = 1 ∧
    pairsIdx ((splitCap (findKeys "Color: red".toList) "Color: red".toList).drop 1) =
      some (pairUp ((splitCap (findKeys "Color: red".toList) "Color: red".toList).drop 1)) :=
  pairing_loop_safe "Color: red".toList (by decide)

lemma map_stripline_zip : ∀ (l : List (List Char × List Char)),
    (∀ kv ∈ l, pyStrip kv.1 = kv.1) →
    l.map (fun kv => "**".toList ++ pyStrip kv.1 ++ "**".toList ++ [' '] ++
      highlightKeywords (pyStrip kv.2)) =
    List.zipWith (fun key v => "**".toList ++ key ++ "**".toList ++ [' '] ++
      highlightKeywords (pyStrip v)) (l.map Prod.fst) (l.map Prod.snd)
  | [], _ => rfl
  | kv :: r, hs => by
    have hh : pyStrip kv.1 = kv.1 := hs kv (by simp)
    have ih := map_stripline_zip r (fun x hx => hs x (by simp [hx]))
    simp only [List.map_cons, List.zipWith_cons_cons, ih, hh]

/-- C2: for any input with at least one discovered key, the output contains
every key of the left-to-right key scan rendered in bold, in the same
relative order as in the input: the output is the join of the lines
`zipWith` of the discovered keys (each bolded verbatim, since a discovered
key never carries surrounding whitespace) with the corresponding values. -/
theorem keys_bold_in_order (t k : List Char) (ks : List (List Char))
    (h : findKeys t = k :: ks) :
    ∃ vals : List (List Char), vals.length = (k :: ks).length ∧
      format_content_locally t = some (List.intercalate ['\n', '\n']
        (List.zipWith (fun key v =>
          "**".toList ++ key ++ "**".toList ++ [' '] ++ highlightKeywords (pyStrip v))
          (k :: ks) vals)) := by
  have hne : findKeys t ≠ [] := by rw [h]; simp
  have hmain := branchA_eq t hne
  have hodd : (splitCap (findKeys t) t).length % 2 = 1 :=
    splitCapF_length_odd (findKeys t) t.length t
  have hfst : (pairUp ((splitCap (findKeys t) t).drop 1)).map Prod.fst =
      sepsOf (splitCap (findKeys t) t) :=
    map_fst_pairUp_drop (splitCap (findKeys t) t) hodd
  have hseps : sepsOf (splitCap (findKeys t) t) = findKeys t := seps_splitCap_findKeys t
  refine ⟨(pairUp ((splitCap (findKeys t) t).drop 1)).map Prod.snd, ?_, ?_⟩
  · have hlen : ((pairUp ((splitCap (findKeys t) t).drop 1)).map Prod.fst).length =
        (k :: ks).length := by
      rw [hfst, hseps, h]
    rw [List.length_map] at hlen ⊢
    exact hlen
  · rw [hmain]
    congr 1
    rw [map_stripline_zip (pairUp ((splitCap (findKeys t) t).drop 1))
      (fun kv hkv => pyStrip_validKey (findKeys_valid t kv.1 (by
        rw [← hseps, ← hfst]
        exact List.mem_map_of_mem Prod.fst hkv)))]
    rw [hfst, hseps, h]

theorem keys_bold_in_order_instance :
    ∃ vals : List (List Char), vals.length = (["Item Name:".toList, "Value:".toList]).length ∧
      format_content_locally "Item Name: Red Mug. Value: 25".toList =
        some (List.intercalate ['\n', '\n']
          (List.zipWith (fun key v =>
            "**".toList ++ key ++ "**".toList ++ [' '] ++ highlightKeywords (pyStrip v))
            ["Item Name:".toList, "Value:".toList] vals)) :=
  keys_bold_in_order "Item Name: Red Mug. Value: 25".toList
    "Item Name:".toList ["Value:".toList] (by decide)

/-- C9: the formatter is a deterministic pure function of its input string
(and the fixed keyword list baked into its definition): equal inputs give
byte-identical outputs, and it always returns an output (no hidden state,
no failure). -/
theorem formatter_pure_total (t₁ t₂ : List Char) (h : t₁ = t₂) :
    format_content_locally t₁ = format_content_locally t₂ ∧
    (format_content_locally t₁).isSome = true := by
  subst h
  refine ⟨rfl, ?_⟩
  by_cases hk : findKeys t₁ = []
  · unfold format_content_locally
    rw [if_pos hk]
    rfl
  · rw [branchA_eq t₁ hk]
    rfl

theorem formatter_pure_total_instance :
    format_content_locally "Size: L".toList = format_content_locally "Size: L".toList ∧
    (format_content_locally "Size: L".toList).isSome = true :=
  formatter_pure_total "Size: L".toList "Size: L".toList rfl

/-- C4: for every input in which no candidate key is found, the formatter
splits at sentence-terminal punctuation followed by whitespace (punctuation
kept), drops whitespace-only fragments, prefixes each surviving trimmed
fragment with the bullet glyph, joins with single newlines, and applies the
keyword emphasis once over the whole joined block. -/
theorem no_keys_bullet_branch (t : List Char) (h : findKeys t = []) :
    format_content_locally t = some (highlightKeywords (List.intercalate ['\n']
      (((splitSentences t).filter (fun s => !(pyStrip s).isEmpty)).map
        (fun s => "&bull; ".toList ++ pyStrip s)))) := by
  unfold format_content_locally
  rw [if_pos h]

theorem no_keys_bullet_branch_instance :
    findKeys "This is great. Buy it now!".toList = [] ∧
    format_content_locally "This is great. Buy it now!".toList =
      some "&bull; This is great.\n&bull; Buy it now!".toList :=
  ⟨by decide,
   (no_keys_bullet_branch "This is great. Buy it now!".toList (by decide)).trans (by decide)⟩

/-- C5: keyword emphasis matches whole words only, case-insensitively, and
wraps the exact matched text preserving its casing: on this input the
leading "Unit" and the final "unit" are wrapped and "Unity" is untouched. -/
theorem keyword_emphasis_whole_word_case :
    highlightKeywords "Unit cost is 5. Unity is not a unit.".toList =
      ("<span style=\"color:red; font-weight:bold;\">Unit</span> cost is 5. " ++
        "Unity is not a <span style=\"color:red; font-weight:bold;\">unit</span>.").toList := by
  decide

lemma space_not_word {c : Char} (h : isSpaceChar c = true) : isWordChar c = false := by
  cases hw : isWordChar c
  · rfl
  · rw [word_not_space hw] at h
    exact Bool.noConfusion h

lemma space_not_punct {c : Char} (h : isSpaceChar c = true) :
    isPunctOpt (some c) = false := by
  simp only [isSpaceChar, Bool.or_eq_true, decide_eq_true_eq] at h
  rcases h with ((((h | h) | h) | h) | h) | h <;> subst h <;> rfl

lemma findKeysF_spaces : ∀ (fuel : Nat) (s : List Char),
    (∀ c ∈ s, isSpaceChar c = true) → findKeysF fuel s = []
  | 0, _, _ => rfl
  | _ + 1, [], _ => rfl
  | fuel + 1, c :: cs, hs => by
    have hw : isWordChar c = false := space_not_word (hs c (by simp))
    have htry : tryKey (c :: cs) = none := by simp [tryKey, hw]
    simp only [findKeysF, htry]
    exact findKeysF_spaces fuel cs (fun d hd => hs d (by simp [hd]))

lemma splitSentGo_spaces : ∀ (s : List Char), (∀ c ∈ s, isSpaceChar c = true) →
    ∀ (prev : Option Char), isPunctOpt prev = false → splitSentGo false prev s = [s]
  | [], _, _, _ => rfl
  | c :: cs, hs, prev, hp => by
    have hc : isSpaceChar c = true := hs c (by simp)
    have ih := splitSentGo_spaces cs (fun d hd => hs d (by simp [hd]))
      (some c) (space_not_punct hc)
    simp only [splitSentGo, Bool.false_and, Bool.false_eq_true, if_false, hp, ih]

lemma pyStrip_spaces {s : List Char} (hs : ∀ c ∈ s, isSpaceChar c = true) :
    pyStrip s = [] := by
  unfold pyStrip
  rw [List.dropWhile_eq_nil_iff.2 (fun a ha => hs a ha)]
  rfl

/-- C10: an input consisting solely of whitespace (including the empty
string) yields the empty output: no key is found, the single whitespace
sentence fragment is dropped after trimming, and the emphasis passes leave
the empty block unchanged. -/
theorem whitespace_input_empty_output (t : List Char) (h : ∀ c ∈ t, isSpaceChar c = true) :
    format_content_locally t = some [] := by
  have hk : findKeys t = [] := findKeysF_spaces t.length t h
  unfold format_content_locally
  rw [if_pos hk]
  have hsent : splitSentences t = [t] := splitSentGo_spaces t h none rfl
  rw [show splitSentences t = [t] from hsent]
  have hstrip : pyStrip t = [] := pyStrip_spaces h
  simp [hstrip]
  rfl

theorem whitespace_input_empty_output_instance :
    format_content_locally " \t ".toList = some [] ∧
    format_content_locally "".toList = some [] :=
  ⟨whitespace_input_empty_output " \t ".toList (by decide),
   whitespace_input_empty_output "".toList (by decide)⟩

/-! C7: shape and interleaving of the key discovery. -/

/-- Interleaving of segments and keys: `[u0, u1, …]` and `[k1, k2, …]`
rebuild `u0 ++ k1 ++ u1 ++ k2 ++ …`. -/
def interleaveJoin : List (List Char) → List (List Char) → List Char
  | u :: us, k :: ks => u ++ (k ++ interleaveJoin us ks)
  | u :: _, [] => u
  | [], _ => []

lemma findKeysF_decomp : ∀ (fuel : Nat) (s : List Char),
    ∃ us : List (List Char), us.length = (findKeysF fuel s).length + 1 ∧
      s = interleaveJoin us (findKeysF fuel s)
  | 0, s => ⟨[s], by simp [findKeysF, interleaveJoin]⟩
  | _ + 1, [] => ⟨[[]], by simp [findKeysF, interleaveJoin]⟩
  | fuel + 1, c :: cs => by
    rcases htry : tryKey (c :: cs) with _ | ⟨m, rest⟩
    · obtain ⟨us, hlen, hdec⟩ := findKeysF_decomp fuel cs
      rcases us with _ | ⟨u, us'⟩
      · simp at hlen
      · refine ⟨(c :: u) :: us', ?_, ?_⟩
        · simp only [findKeysF, htry]
          simpa using hlen
        · simp only [findKeysF, htry]
          cases hks : findKeysF fuel cs with
          | nil =>
            rw [hks] at hdec
            simp only [interleaveJoin] at hdec ⊢
            rw [hdec]
          | cons k ks' =>
            rw [hks] at hdec
            simp only [interleaveJoin, List.cons_append] at hdec ⊢
            rw [← hdec]
    · obtain ⟨hval, heq⟩ := tryKey_some htry
      obtain ⟨us, hlen, hdec⟩ := findKeysF_decomp fuel rest
      refine ⟨[] :: us, ?_, ?_⟩
      · simp only [findKeysF, htry]
        simpa using hlen
      · simp only [findKeysF, htry]
        rcases us with _ | ⟨u, us'⟩
        · simp at hlen
        · simp only [interleaveJoin, List.nil_append]
          rw [heq, ← hdec]

/-- C7: every candidate key discovered by the scan has the shape "one word
character, then word/space/digit characters, then a literal colon", and the
discovered keys appear in the input, in order and non-overlapping: some
list of interleaving segments rebuilds the whole input around them. -/
theorem key_discovery_shape (t : List Char) :
    (∀ k ∈ findKeys t, ∃ c r, k = c :: (r ++ [':']) ∧ isWordChar c = true ∧
      ∀ d ∈ r, isKeyChar d = true) ∧
    ∃ us : List (List Char), us.length = (findKeys t).length + 1 ∧
      t = interleaveJoin us (findKeys t) :=
  ⟨fun k hk => findKeys_valid t k hk, findKeysF_decomp t.length t⟩

theorem key_discovery_shape_instance :
    (∃ c r, "Price:".toList = c :: (r ++ [':']) ∧ isWordChar c = true ∧
      ∀ d ∈ r, isKeyChar d = true) ∧
    ∃ us : List (List Char), us.length = (findKeys "Price: 9".toList).length + 1 ∧
      "Price: 9".toList = interleaveJoin us (findKeys "Price: 9".toList) :=
  ⟨(key_discovery_shape "Price: 9".toList).1 "Price:".toList (by decide),
   (key_discovery_shape "Price: 9".toList).2⟩

/-- C8 counterexamples: a present-but-empty content field and a present
null (NaN) field are coerced with str and are NOT replaced by the fallback
string, contradicting the claim that null or empty content is substituted
before formatting (only an absent field is). -/
theorem content_fallback_counterexample :
    raw_description (some (CellVal.strV [])) ≠ fallbackText ∧
    raw_description (some CellVal.nanV) ≠ fallbackText := by
  constructor <;> decide

/-- C8 amended: only an absent content field is replaced by the fallback
string; a present value (even an empty string or NaN) is coerced with str
and formatted as-is; the substitution is total (never an error); and the
fallback string passes through the keyword-emphasis pass unchanged. -/
theorem content_fallback_amended :
    raw_description none = fallbackText ∧
    (∀ v : CellVal, raw_description (some v) = cellToText v) ∧
    highlightKeywords fallbackText = fallbackText :=
  ⟨rfl, fun _ => rfl, by decide⟩

/-! C6: sequential emphasis passes and the Bullet Point / Bullet Poin
overlap.  The Bullet Point pass is instrumented so that its output is an
alternation of untouched plain text and wrapped matches; the Bullet Poin
pass is then shown to leave every wrapped region exactly as it is. -/

def kwBulletPoint : List Char := "Bullet Point".toList

def kwBulletPoin : List Char := "Bullet Poin".toList

/-- Instrumented version of the re.sub scan: it returns the leading plain
segment and the list of (wrapped match, following plain segment) pairs. -/
def scanWrapF (kw : List Char) : Nat → Bool → List Char →
    List Char × List (List Char × List Char)
  | 0, _, s => (s, [])
  | _ + 1, _, [] => ([], [])
  | fuel + 1, prevW, c :: cs =>
    if condKw kw prevW (c :: cs) then
      let res := scanWrapF kw fuel (lastIsWord ((c :: cs).take kw.length))
        ((c :: cs).drop kw.length)
      ([], ((c :: cs).take kw.length, res.1) :: res.2)
    else
      let res := scanWrapF kw fuel (isWordChar c) cs
      (c :: res.1, res.2)

/-- Instrumented scan over the whole string. -/
def scanWrap (kw s : List Char) : List Char × List (List Char × List Char) :=
  scanWrapF kw s.length false s

/-- Rebuild the output of the pass from the instrumented scan. -/
def joinWraps : List (List Char × List Char) → List Char
  | [] => []
  | (w, p) :: r => spanOpen ++ w ++ spanClose ++ p ++ joinWraps r

/-- Rebuild, additionally applying a second pass to the plain segments
only: the wrapped matches are kept verbatim (wrapped exactly once). -/
def joinWrapsSub (kw2 : List Char) : List (List Char × List Char) → List Char
  | [] => []
  | (w, p) :: r => spanOpen ++ w ++ spanClose ++ subKw kw2 p ++ joinWrapsSub kw2 r

lemma subKwF_eq_scanWrap (kw : List Char) : ∀ (fuel : Nat) (prevW : Bool) (s : List Char),
    subKwF kw fuel prevW s =
      (scanWrapF kw fuel prevW s).1 ++ joinWraps (scanWrapF kw fuel prevW s).2
  | 0, prevW, s => by simp [subKwF, scanWrapF, joinWraps]
  | _ + 1, prevW, [] => by simp [subKwF, scanWrapF, joinWraps]
  | fuel + 1, prevW, c :: cs => by
    by_cases hc : condKw kw prevW (c :: cs) = true
    · have ih := subKwF_eq_scanWrap kw fuel (lastIsWord ((c :: cs).take kw.length))
        ((c :: cs).drop kw.length)
      simp only [subKwF, scanWrapF, hc, if_true, ih, joinWraps, List.append_assoc,
        List.nil_append]
    · have hcf : condKw kw prevW (c :: cs) = false := by
        revert hc
        cases condKw kw prevW (c :: cs) <;> simp
      have ih := subKwF_eq_scanWrap kw fuel (isWordChar c) cs
      simp only [subKwF, scanWrapF, hcf, Bool.false_eq_true, if_false, ih,
        List.cons_append]

lemma scanWrapF_wrapped_lower (kw : List Char) : ∀ (fuel : Nat) (prevW : Bool) (s : List Char),
    ∀ wp ∈ (scanWrapF kw fuel prevW s).2, wp.1.map Char.toLower = kw.map Char.toLower
  | 0, prevW, s => by simp [scanWrapF]
  | _ + 1, prevW, [] => by simp [scanWrapF]
  | fuel + 1, prevW, c :: cs => by
    intro wp hwp
    by_cases hc : condKw kw prevW (c :: cs) = true
    · simp only [scanWrapF, hc, if_true, List.mem_cons] at hwp
      rcases hwp with rfl | hwp'
      · have hlow : lowerEq ((c :: cs).take kw.length) kw = true := by
          unfold condKw at hc
          rw [Bool.and_eq_true, Bool.and_eq_true] at hc
          exact hc.1.1
        exact (beq_iff_eq).1 hlow
      · exact scanWrapF_wrapped_lower kw fuel _ _ wp hwp'
    · have hcf : condKw kw prevW (c :: cs) = false := by
        revert hc
        cases condKw kw prevW (c :: cs) <;> simp
      simp only [scanWrapF, hcf, Bool.false_eq_true, if_false] at hwp
      exact scanWrapF_wrapped_lower kw fuel _ _ wp hwp

lemma subKwF_fuel (kw : List Char) (hkw : kw ≠ []) :
    ∀ (f1 f2 : Nat) (prevW : Bool) (s : List Char), s.length ≤ f1 → s.length ≤ f2 →
      subKwF kw f1 prevW s = subKwF kw f2 prevW s
  | 0, f2, prevW, s, h1, _ => by
    have hs : s = [] := List.eq_nil_of_length_eq_zero (Nat.le_zero.1 h1)
    subst hs
    cases f2 <;> rfl
  | _ + 1, f2, _, [], _, _ => by cases f2 <;> rfl
  | f1 + 1, f2, prevW, c :: cs, h1, h2 => by
    rcases f2 with _ | f2'
    · simp at h2
    · have hkl : 1 ≤ kw.length := by
        rcases kw with _ | ⟨a, as⟩
        · exact absurd rfl hkw
        · simp
      by_cases hc : condKw kw prevW (c :: cs) = true
      · have hlen : ((c :: cs).drop kw.length).length ≤ f1 := by
          rw [List.length_drop]
          simp only [List.length_cons] at h1 ⊢
          omega
        have hlen2 : ((c :: cs).drop kw.length).length ≤ f2' := by
          rw [List.length_drop]
          simp only [List.length_cons] at h2 ⊢
          omega
        simp only [subKwF, hc, if_true]
        rw [subKwF_fuel kw hkw f1 f2' _ _ hlen hlen2]
      · have hcf : condKw kw prevW (c :: cs) = false := by
          revert hc
          cases condKw kw prevW (c :: cs) <;> simp
        have hlen : cs.length ≤ f1 := by
          simp only [List.length_cons] at h1
          omega
        have hlen2 : cs.length ≤ f2' := by
          simp only [List.length_cons] at h2
          omega
        simp only [subKwF, hcf, Bool.false_eq_true, if_false]
        rw [subKwF_fuel kw hkw f1 f2' _ _ hlen hlen2]

lemma subKwB_cons_nomatch {kw : List Char} {prevW : Bool} {c : Char} {cs : List Char}
    (hc : condKw kw prevW (c :: cs) = false) :
    subKwB kw prevW (c :: cs) = c :: subKwB kw (isWordChar c) cs := by
  unfold subKwB
  rw [List.length_cons]
  simp only [subKwF, hc, Bool.false_eq_true, if_false]

lemma subKwB_cons_match {kw : List Char} (hkw : kw ≠ []) {prevW : Bool} {c : Char}
    {cs : List Char} (hc : condKw kw prevW (c :: cs) = true) :
    subKwB kw prevW (c :: cs) = spanOpen ++ (c :: cs).take kw.length ++ spanClose ++
      subKwB kw (lastIsWord ((c :: cs).take kw.length)) ((c :: cs).drop kw.length) := by
  unfold subKwB
  rw [List.length_cons]
  simp only [subKwF, hc, if_true]
  have hkl : 1 ≤ kw.length := by
    rcases kw with _ | ⟨a, as⟩
    · exact absurd rfl hkw
    · simp
  have hle : ((c :: cs).drop kw.length).length ≤ cs.length := by
    rw [List.length_drop]
    simp only [List.length_cons]
    omega
  rw [subKwF_fuel kw hkw cs.length ((c :: cs).drop kw.length).length _ _ hle (le_refl _)]

/-- State of the word-boundary tracker after scanning `p`, starting at
state `b`: the wordness of the last character of `p`, or `b` when `p` is
empty. -/
def endW (b : Bool) (p : List Char) : Bool :=
  match p.getLast? with
  | none => b
  | some c => isWordChar c

lemma endW_nil (b : Bool) : endW b [] = b := rfl

lemma endW_cons (b : Bool) (c : Char) (p : List Char) :
    endW b (c :: p) = endW (isWordChar c) p := by
  unfold endW
  cases p with
  | nil => rfl
  | cons d ds =>
    rw [List.getLast?_cons_cons]
    rcases hl : (d :: ds).getLast? with _ | e
    · simp [List.getLast?_eq_none_iff] at hl
    · rfl

lemma endW_append (b : Bool) (p q : List Char) : endW b (p ++ q) = endW (endW b p) q := by
  rcases hq : q.getLast? with _ | c
  · have hqnil : q = [] := List.getLast?_eq_none_iff.1 hq
    subst hqnil
    simp [endW]
  · unfold endW
    rw [List.getLast?_append, hq]
    rfl

lemma lastIsWord_eq_endW {m : List Char} (hm : m ≠ []) (b : Bool) :
    lastIsWord m = endW b m := by
  unfold lastIsWord endW
  rcases hrev : m.reverse with _ | ⟨c, rest⟩
  · exact absurd (List.reverse_eq_nil_iff.1 hrev) hm
  · rw [List.getLast?_eq_head?_reverse, hrev]
    rfl

lemma headIsWord_append_left {q : List Char} (hq : q ≠ []) (Y : List Char) :
    headIsWord (q ++ Y) = headIsWord q := by
  cases q with
  | nil => exact absurd rfl hq
  | cons c cs => rfl

lemma condKw_append_markup {kw : List Char} (hkw : kw ≠ [])
    (hlt : ∀ c ∈ kw, Char.toLower c ≠ '<')
    {q : List Char} (hq : q ≠ []) (prevW : Bool) (Y' : List Char) :
    condKw kw prevW (q ++ '<' :: Y') = condKw kw prevW q := by
  by_cases hle : kw.length ≤ q.length
  · unfold condKw
    rw [List.take_append_of_le_length hle, List.drop_append_of_le_length hle,
      headIsWord_append_left hq]
    congr 1
    congr 1
    rcases hd : q.drop kw.length with _ | ⟨d, ds⟩
    · show headIsWord ('<' :: Y') = headIsWord []
      show isWordChar '<' = false
      decide
    · rfl
  · push_neg at hle
    have hR : lowerEq (q.take kw.length) kw = false := by
      cases hLE : lowerEq (q.take kw.length) kw
      · rfl
      · exfalso
        have hLE2 : (q.take kw.length).map Char.toLower = kw.map Char.toLower :=
          beq_iff_eq.1 hLE
        have h2 := congrArg List.length hLE2
        simp only [List.length_map, List.length_take] at h2
        omega
    have hL : lowerEq ((q ++ '<' :: Y').take kw.length) kw = false := by
      cases hLE : lowerEq ((q ++ '<' :: Y').take kw.length) kw
      · rfl
      · exfalso
        have hmaps : ((q ++ '<' :: Y').take kw.length).map Char.toLower =
            kw.map Char.toLower := beq_iff_eq.1 hLE
        have hmem : '<' ∈ (q ++ '<' :: Y').take kw.length := by
          have hsum : kw.length = q.length + (kw.length - q.length) := by omega
          rw [hsum, List.take_append]
          have hpos : kw.length - q.length = (kw.length - q.length - 1) + 1 := by omega
          rw [hpos, List.take_succ_cons]
          simp
        have hmm : '<' ∈ kw.map Char.toLower := by
          rw [← hmaps]
          exact List.mem_map.2 ⟨'<', hmem, by decide⟩
        rcases List.mem_map.1 hmm with ⟨c, hc, hc2⟩
        exact hlt c hc hc2
    unfold condKw
    rw [hL, hR]
    rfl

lemma condKw_fail_first {k0 : Char} {ktl : List Char} {c : Char} {cs : List Char}
    (prevW : Bool) (hne : Char.toLower c ≠ Char.toLower k0) :
    condKw (k0 :: ktl) prevW (c :: cs) = false := by
  unfold condKw
  have hlf : lowerEq ((c :: cs).take (k0 :: ktl).length) (k0 :: ktl) = false := by
    rw [show (k0 :: ktl).length = ktl.length + 1 from rfl, List.take_succ_cons]
    apply beq_eq_false_iff_ne.2
    intro hmap
    simp only [List.map_cons, List.cons.injEq] at hmap
    exact hne hmap.1
  rw [hlf]
  rfl

lemma condKw_fail_second {k0 k1 : Char} {ktl : List Char} {c0 c1 : Char} {cs : List Char}
    (prevW : Bool) (hne : Char.toLower c1 ≠ Char.toLower k1) :
    condKw (k0 :: k1 :: ktl) prevW (c0 :: c1 :: cs) = false := by
  unfold condKw
  have hlf : lowerEq ((c0 :: c1 :: cs).take (k0 :: k1 :: ktl).length) (k0 :: k1 :: ktl) =
      false := by
    rw [show (k0 :: k1 :: ktl).length = ktl.length + 1 + 1 from rfl, List.take_succ_cons,
      List.take_succ_cons]
    apply beq_eq_false_iff_ne.2
    intro hmap
    simp only [List.map_cons, List.cons.injEq] at hmap
    exact hne hmap.2.1
  rw [hlf]
  rfl

lemma subKwB_skip_run {k0 : Char} {ktl : List Char} :
    ∀ (u : List Char), (∀ c ∈ u, Char.toLower c ≠ Char.toLower k0) →
    ∀ (prevW : Bool) (Y : List Char),
      subKwB (k0 :: ktl) prevW (u ++ Y) = u ++ subKwB (k0 :: ktl) (endW prevW u) Y
  | [], _, prevW, Y => by simp [endW_nil]
  | c :: u', hu, prevW, Y => by
    have hcf : condKw (k0 :: ktl) prevW (c :: (u' ++ Y)) = false :=
      condKw_fail_first prevW (hu c (by simp))
    rw [List.cons_append, subKwB_cons_nomatch hcf,
      subKwB_skip_run u' (fun d hd => hu d (by simp [hd])) (isWordChar c) Y,
      endW_cons]
    rfl

lemma subKwB_nil (kw : List Char) (prevW : Bool) : subKwB kw prevW [] = [] := rfl

lemma subKwB_append_markup {kw : List Char} (hkw : kw ≠ [])
    (hlt : ∀ c ∈ kw, Char.toLower c ≠ '<') :
    ∀ (n : Nat) (p : List Char), p.length ≤ n → ∀ (prevW : Bool) (Y' : List Char),
      subKwB kw prevW (p ++ '<' :: Y') =
        subKwB kw prevW p ++ subKwB kw (endW prevW p) ('<' :: Y')
  | 0, p, hp, prevW, Y' => by
    have hnil : p = [] := List.eq_nil_of_length_eq_zero (Nat.le_zero.1 hp)
    subst hnil
    simp [endW_nil, subKwB_nil]
  | n + 1, [], _, prevW, Y' => by simp [endW_nil, subKwB_nil]
  | n + 1, c :: p', hp, prevW, Y' => by
    have hkl : 1 ≤ kw.length := by
      rcases kw with _ | ⟨a, as⟩
      · exact absurd rfl hkw
      · simp
    by_cases hc : condKw kw prevW ((c :: p') ++ '<' :: Y') = true
    · have hc' : condKw kw prevW (c :: p') = true := by
        rw [← condKw_append_markup hkw hlt (by simp) prevW Y']
        exact hc
      have hle : kw.length ≤ (c :: p').length := by
        have h1 : lowerEq ((c :: p').take kw.length) kw = true := by
          unfold condKw at hc'
          rw [Bool.and_eq_true, Bool.and_eq_true] at hc'
          exact hc'.1.1
        have h1m : ((c :: p').take kw.length).map Char.toLower = kw.map Char.toLower :=
          beq_iff_eq.1 h1
        have h2 := congrArg List.length h1m
        simp only [List.length_map, List.length_take] at h2
        omega
      have hc2 : condKw kw prevW (c :: (p' ++ '<' :: Y')) = true := by
        rw [← List.cons_append]
        exact hc
      rw [List.cons_append, subKwB_cons_match hkw hc2, subKwB_cons_match hkw hc']
      rw [← List.cons_append, List.take_append_of_le_length hle,
        List.drop_append_of_le_length hle]
      have hlenrec : ((c :: p').drop kw.length).length ≤ n := by
        rw [List.length_drop]
        simp only [List.length_cons] at hp ⊢
        omega
      rw [subKwB_append_markup hkw hlt n ((c :: p').drop kw.length) hlenrec
        (lastIsWord ((c :: p').take kw.length)) Y']
      have htne : (c :: p').take kw.length ≠ [] := by
        intro hnil
        have hl2 := congrArg List.length hnil
        simp only [List.length_take, List.length_cons, List.length_nil] at hl2
        omega
      have hstate : endW (lastIsWord ((c :: p').take kw.length)) ((c :: p').drop kw.length) =
          endW prevW (c :: p') := by
        conv_rhs => rw [← List.take_append_drop kw.length (c :: p')]
        rw [endW_append]
        congr 1
        exact lastIsWord_eq_endW htne prevW
      rw [hstate]
      simp [List.append_assoc]
    · have hcf : condKw kw prevW ((c :: p') ++ '<' :: Y') = false := by
        revert hc
        cases condKw kw prevW ((c :: p') ++ '<' :: Y') <;> simp
      have hcf' : condKw kw prevW (c :: p') = false := by
        rw [← condKw_append_markup hkw hlt (by simp) prevW Y']
        exact hcf
      have hcf2 : condKw kw prevW (c :: (p' ++ '<' :: Y')) = false := by
        rw [← List.cons_append]
        exact hcf
      rw [List.cons_append, subKwB_cons_nomatch hcf2, subKwB_cons_nomatch hcf']
      have hlenrec : p'.length ≤ n := by
        simp only [List.length_cons] at hp
        omega
      rw [subKwB_append_markup hkw hlt n p' hlenrec (isWordChar c) Y', endW_cons]
      rfl

lemma char_toNat_ofNat {n : Nat} (h : n.isValidChar) : (Char.ofNat n).toNat = n := by
  unfold Char.ofNat
  rw [dif_pos h]
  rfl

lemma isWordChar_toLower (c : Char) : isWordChar (Char.toLower c) = isWordChar c := by
  unfold Char.toLower
  by_cases h : c.toNat ≥ 65 ∧ c.toNat ≤ 90
  · rw [if_pos h]
    have hval : Nat.isValidChar (c.toNat + 32) := Or.inl (by omega)
    have htn : (Char.ofNat (c.toNat + 32)).toNat = c.toNat + 32 := char_toNat_ofNat hval
    unfold isWordChar
    rw [htn]
    have hl : ((65 ≤ c.toNat + 32 && c.toNat + 32 ≤ 90) ||
        (97 ≤ c.toNat + 32 && c.toNat + 32 ≤ 122) ||
        (48 ≤ c.toNat + 32 && c.toNat + 32 ≤ 57) || (c.toNat + 32 == 95)) = true := by
      simp only [Bool.or_eq_true, Bool.and_eq_true, decide_eq_true_eq, beq_iff_eq]
      omega
    have hr : ((65 ≤ c.toNat && c.toNat ≤ 90) || (97 ≤ c.toNat && c.toNat ≤ 122) ||
        (48 ≤ c.toNat && c.toNat ≤ 57) || (c.toNat == 95)) = true := by
      simp only [Bool.or_eq_true, Bool.and_eq_true, decide_eq_true_eq, beq_iff_eq]
      omega
    rw [hl, hr]
  · rw [if_neg h]

/-- The opening markup up to the characters "bo" of "bold". -/
def sOpenA : List Char := "<span style=\"color:red; font-weight:".toList

/-- The opening markup after the characters "bo" of "bold". -/
def sOpenB : List Char := "ld;\">".toList

lemma poin_skip_markup (w : List Char)
    (hw : w.map Char.toLower = kwBulletPoint.map Char.toLower)
    (prevW : Bool) (Y : List Char) :
    subKwB kwBulletPoin prevW (spanOpen ++ w ++ spanClose ++ Y) =
      spanOpen ++ w ++ spanClose ++ subKwB kwBulletPoin false Y := by
  have hw12 : w.length = 12 := by
    have h := congrArg List.length hw
    rw [List.length_map, List.length_map] at h
    rw [h]
    decide
  rcases w with _ | ⟨b0, w⟩
  · simp at hw12
  rcases w with _ | ⟨b1, w⟩
  · simp at hw12
  rcases w with _ | ⟨b2, w⟩
  · simp at hw12
  rcases w with _ | ⟨b3, w⟩
  · simp at hw12
  rcases w with _ | ⟨b4, w⟩
  · simp at hw12
  rcases w with _ | ⟨b5, w⟩
  · simp at hw12
  rcases w with _ | ⟨b6, w⟩
  · simp at hw12
  rcases w with _ | ⟨b7, w⟩
  · simp at hw12
  rcases w with _ | ⟨b8, w⟩
  · simp at hw12
  rcases w with _ | ⟨b9, w⟩
  · simp at hw12
  rcases w with _ | ⟨b10, w⟩
  · simp at hw12
  rcases w with _ | ⟨b11, w⟩
  · simp at hw12
  have hwnil : w = [] := by
    simp only [List.length_cons] at hw12
    exact List.eq_nil_of_length_eq_zero (by omega)
  subst hwnil
  have hbp : kwBulletPoint.map Char.toLower =
      ['b', 'u', 'l', 'l', 'e', 't', ' ', 'p', 'o', 'i', 'n', 't'] := by decide
  rw [hbp] at hw
  simp only [List.map_cons, List.map_nil] at hw
  injection hw with h0 hw
  injection hw with h1 hw
  injection hw with h2 hw
  injection hw with h3 hw
  injection hw with h4 hw
  injection hw with h5 hw
  injection hw with h6 hw
  injection hw with h7 hw
  injection hw with h8 hw
  injection hw with h9 hw
  injection hw with h10 hw
  injection hw with h11 hw
  have hpoinc : kwBulletPoin = ['B', 'u', 'l', 'l', 'e', 't', ' ', 'P', 'o', 'i', 'n'] := by
    decide
  have hso : spanOpen = sOpenA ++ 'b' :: 'o' :: sOpenB := by decide
  rw [hpoinc, hso]
  simp only [List.append_assoc, List.cons_append, List.nil_append]
  have hsa : ∀ c ∈ sOpenA, Char.toLower c ≠ Char.toLower 'B' := by decide
  rw [subKwB_skip_run sOpenA hsa prevW _]
  have hendA : ∀ b : Bool, endW b sOpenA = false := fun b => rfl
  rw [hendA]
  have hcb : condKw ('B' :: 'u' :: ['l', 'l', 'e', 't', ' ', 'P', 'o', 'i', 'n']) false
      ('b' :: 'o' :: (sOpenB ++ (b0 :: b1 :: b2 :: b3 :: b4 :: b5 :: b6 :: b7 :: b8 :: b9 ::
        b10 :: b11 :: (spanClose ++ Y)))) = false :=
    condKw_fail_second false (by decide)
  rw [subKwB_cons_nomatch hcb]
  have hsb : ∀ c ∈ 'o' :: sOpenB, Char.toLower c ≠ Char.toLower 'B' := by decide
  rw [show ('o' :: (sOpenB ++ (b0 :: b1 :: b2 :: b3 :: b4 :: b5 :: b6 :: b7 :: b8 :: b9 ::
      b10 :: b11 :: (spanClose ++ Y)))) = (('o' :: sOpenB) ++ (b0 :: b1 :: b2 :: b3 :: b4 ::
      b5 :: b6 :: b7 :: b8 :: b9 :: b10 :: b11 :: (spanClose ++ Y))) from by simp]
  rw [subKwB_skip_run ('o' :: sOpenB) hsb _ _]
  have hendB : ∀ b : Bool, endW b ('o' :: sOpenB) = false := fun b => rfl
  rw [hendB]
  have hb0w : isWordChar b0 = true := by rw [← isWordChar_toLower, h0]; decide
  have hb10w : isWordChar b10 = true := by rw [← isWordChar_toLower, h10]; decide
  have hb11w : isWordChar b11 = true := by rw [← isWordChar_toLower, h11]; decide
  have hcw : condKw ['B', 'u', 'l', 'l', 'e', 't', ' ', 'P', 'o', 'i', 'n'] false
      (b0 :: b1 :: b2 :: b3 :: b4 :: b5 :: b6 :: b7 :: b8 :: b9 :: b10 :: b11 ::
        (spanClose ++ Y)) = false := by
    unfold condKw
    have hklen : (['B', 'u', 'l', 'l', 'e', 't', ' ', 'P', 'o', 'i', 'n'] :
        List Char).length = 11 := rfl
    rw [hklen]
    have htake : (b0 :: b1 :: b2 :: b3 :: b4 :: b5 :: b6 :: b7 :: b8 :: b9 :: b10 :: b11 ::
        (spanClose ++ Y)).take 11 =
        [b0, b1, b2, b3, b4, b5, b6, b7, b8, b9, b10] := rfl
    have hdrop : (b0 :: b1 :: b2 :: b3 :: b4 :: b5 :: b6 :: b7 :: b8 :: b9 :: b10 :: b11 ::
        (spanClose ++ Y)).drop 11 = b11 :: (spanClose ++ Y) := rfl
    rw [htake, hdrop]
    have hlast : lastIsWord [b0, b1, b2, b3, b4, b5, b6, b7, b8, b9, b10] =
        isWordChar b10 := rfl
    have hhead : headIsWord (b11 :: (spanClose ++ Y)) = isWordChar b11 := rfl
    rw [hlast, hhead, hb10w, hb11w]
    simp
  rw [subKwB_cons_nomatch hcw, hb0w]
  have hu : ∀ c ∈ [b1, b2, b3, b4, b5, b6, b7, b8, b9, b10, b11] ++ spanClose,
      Char.toLower c ≠ Char.toLower 'B' := by
    intro c hc
    rw [show Char.toLower 'B' = 'b' from by decide]
    intro habs
    rcases List.mem_append.1 hc with hc1 | hc2
    · simp only [List.mem_cons, List.not_mem_nil, or_false] at hc1
      rcases hc1 with rfl | rfl | rfl | rfl | rfl | rfl | rfl | rfl | rfl | rfl | rfl
      · rw [h1] at habs; exact absurd habs (by decide)
      · rw [h2] at habs; exact absurd habs (by decide)
      · rw [h3] at habs; exact absurd habs (by decide)
      · rw [h4] at habs; exact absurd habs (by decide)
      · rw [h5] at habs; exact absurd habs (by decide)
      · rw [h6] at habs; exact absurd habs (by decide)
      · rw [h7] at habs; exact absurd habs (by decide)
      · rw [h8] at habs; exact absurd habs (by decide)
      · rw [h9] at habs; exact absurd habs (by decide)
      · rw [h10] at habs; exact absurd habs (by decide)
      · rw [h11] at habs; exact absurd habs (by decide)
    · fin_cases hc2 <;> exact absurd habs (by decide)
  rw [show (b1 :: b2 :: b3 :: b4 :: b5 :: b6 :: b7 :: b8 :: b9 :: b10 :: b11 ::
      (spanClose ++ Y)) = (([b1, b2, b3, b4, b5, b6, b7, b8, b9, b10, b11] ++ spanClose) ++ Y)
      from by simp]
  rw [subKwB_skip_run ([b1, b2, b3, b4, b5, b6, b7, b8, b9, b10, b11] ++ spanClose) hu _ _]
  have hendC : ∀ b : Bool,
      endW b ([b1, b2, b3, b4, b5, b6, b7, b8, b9, b10, b11] ++ spanClose) = false :=
    fun b => by rw [endW_append]; rfl
  rw [hendC]
  simp [List.append_assoc, List.cons_append]

/-- The opening markup without its leading angle bracket. -/
def sOpenTail : List Char := "span style=\"color:red; font-weight:bold;\">".toList

lemma poin_over_joined :
    ∀ (l : List (List Char × List Char)),
      (∀ wp ∈ l, wp.1.map Char.toLower = kwBulletPoint.map Char.toLower) →
      ∀ (p : List Char),
        subKw kwBulletPoin (p ++ joinWraps l) =
          subKw kwBulletPoin p ++ joinWrapsSub kwBulletPoin l
  | [], _, p => by simp [joinWraps, joinWrapsSub]
  | (w, q) :: r, hl, p => by
    have hw : w.map Char.toLower = kwBulletPoint.map Char.toLower := hl (w, q) (by simp)
    have ihr := poin_over_joined r (fun wp hwp => hl wp (List.mem_cons_of_mem _ hwp)) q
    have hstep1 : p ++ joinWraps ((w, q) :: r) =
        p ++ ('<' :: (sOpenTail ++ (w ++ (spanClose ++ (q ++ joinWraps r))))) := by
      simp [joinWraps, show spanOpen = '<' :: sOpenTail from by decide, List.append_assoc,
        List.cons_append]
    unfold subKw
    rw [hstep1]
    rw [subKwB_append_markup (show kwBulletPoin ≠ [] from by decide) (by decide)
      p.length p (le_refl _) false _]
    have hre : ('<' :: (sOpenTail ++ (w ++ (spanClose ++ (q ++ joinWraps r))))) =
        spanOpen ++ w ++ spanClose ++ (q ++ joinWraps r) := by
      simp [show spanOpen = '<' :: sOpenTail from by decide, List.append_assoc,
        List.cons_append]
    rw [hre, poin_skip_markup w hw _ _]
    unfold subKw at ihr
    rw [ihr]
    simp [joinWrapsSub, subKw, List.append_assoc]

/-- C6: the keyword passes run sequentially in the fixed list order, each
over the output of the previous pass; the Bullet Point pass decomposes its
output into plain segments and wrapped matches; and the later Bullet Poin
pass leaves every wrapped region exactly as inserted (it substitutes inside
the plain segments only), so no wrapped Bullet Point occurrence is ever
wrapped a second time. -/
theorem sequential_passes_no_rewrap (s : List Char) :
    highlightKeywords s =
      subKw "Item Name".toList (subKw kwBulletPoin (subKw kwBulletPoint
        (subKw "Value".toList (subKw "Unit".toList s)))) ∧
    subKw kwBulletPoint s =
      (scanWrap kwBulletPoint s).1 ++ joinWraps (scanWrap kwBulletPoint s).2 ∧
    subKw kwBulletPoin (subKw kwBulletPoint s) =
      subKw kwBulletPoin (scanWrap kwBulletPoint s).1 ++
        joinWrapsSub kwBulletPoin (scanWrap kwBulletPoint s).2 := by
  refine ⟨rfl, subKwF_eq_scanWrap kwBulletPoint s.length false s, ?_⟩
  have hfaith : subKw kwBulletPoint s =
      (scanWrap kwBulletPoint s).1 ++ joinWraps (scanWrap kwBulletPoint s).2 :=
    subKwF_eq_scanWrap kwBulletPoint s.length false s
  have hinv := scanWrapF_wrapped_lower kwBulletPoint s.length false s
  rw [hfaith]
  exact poin_over_joined (scanWrap kwBulletPoint s).2 hinv (scanWrap kwBulletPoint s).1

theorem sequential_passes_no_rewrap_instance :
    subKw kwBulletPoin (subKw kwBulletPoint "a Bullet Point b".toList) =
      subKw kwBulletPoin (scanWrap kwBulletPoint "a Bullet Point b".toList).1 ++
        joinWrapsSub kwBulletPoin (scanWrap kwBulletPoint "a Bullet Point b".toList).2 :=
  (sequential_passes_no_rewrap "a Bullet Point b".toList).2.2
